import Mathlib

/-!
Verification of the two automation scripts of this repository:
`src/generate-config.py` (server-config generator) and `src/semver.py`
(semantic-version release script).  Python values, dictionaries, the
environment and the filesystem are shallowly embedded; each Python
function the claims touch is translated into an executable Lean
definition of the same name, and the claims are settled as theorems
about those definitions.
-/

set_option autoImplicit false

namespace VintageStory

/-- Shallow embedding of the Python values that can appear in the
configuration document (YAML scalars, lists, nested mappings and
`None`).  A Python `dict` is an insertion-ordered association list. -/
inductive PyVal where
  | none
  | bool (b : Bool)
  | int (n : Int)
  | str (s : String)
  | list (xs : List PyVal)
  | dict (entries : List (String × PyVal))

/-- Python `d[k]` lookup on an insertion-ordered dict / `os.environ`:
first entry whose key matches. -/
def assocGet {α β : Type} [DecidableEq α] (l : List (α × β)) (k : α) : Option β :=
  match l with
  | [] => Option.none
  | (k1, v) :: rest => if k1 = k then some v else assocGet rest k

/-- Python `d[k] = v` assignment: overwrite in place if the key is
present (keeping its position), otherwise append. -/
def assocSet {α β : Type} [DecidableEq α] (l : List (α × β)) (k : α) (v : β) :
    List (α × β) :=
  match l with
  | [] => [(k, v)]
  | (k1, v1) :: rest =>
    if k1 = k then (k1, v) :: rest else (k1, v1) :: assocSet rest k v

/-- Python `del d[k]` / `os.environ.pop(k)`: remove the first entry
with the given key. -/
def assocRemove {α β : Type} [DecidableEq α] (l : List (α × β)) (k : α) :
    List (α × β) :=
  match l with
  | [] => []
  | (k1, v1) :: rest =>
    if k1 = k then rest else (k1, v1) :: assocRemove rest k

/-- `List Char` prefix test; `pyStartsWith s pre` models Python
`s.startswith(pre)`. -/
def listIsPrefix : List Char → List Char → Bool
  | [], _ => true
  | _ :: _, [] => false
  | c :: cs, d :: ds => c == d && listIsPrefix cs ds

/-- Python `s.startswith(pre)`. -/
def pyStartsWith (s pre : String) : Bool := listIsPrefix pre.data s.data

/-- Python `s.lower()` (the configuration tokens are ASCII). -/
def pyLower (s : String) : String := String.mk (s.data.map Char.toLower)

/-- The static translation table `self.env_setting_map` of
`generate-config.py`. -/
def env_setting_map : List (String × String) :=
  [("VS_CFG_SERVER_NAME", "ServerName"),
   ("VS_CFG_SERVER_URL", "ServerUrl"),
   ("VS_CFG_SERVER_DESCRIPTION", "ServerDescription"),
   ("VS_CFG_WELCOME_MESSAGE", "WelcomeMessage"),
   ("VS_CFG_ALLOW_CREATIVE_MODE", "AllowCreativeMode"),
   ("VS_CFG_SERVER_IP", "Ip"),
   ("VS_CFG_SERVER_PORT", "Port"),
   ("VS_CFG_SERVER_UPNP", "Upnp"),
   ("VS_CFG_SERVER_COMPRESS_PACKETS", "CompressPackets"),
   ("VS_CFG_ADVERTISE_SERVER", "AdvertiseServer"),
   ("VS_CFG_MAX_CLIENTS", "MaxClients"),
   ("VS_CFG_PASS_TIME_WHEN_EMPTY", "PassTimeWhenEmpty"),
   ("VS_CFG_SERVER_PASSWORD", "Password"),
   ("VS_CFG_MAX_CHUNK_RADIUS", "MaxChunkRadius"),
   ("VS_CFG_SERVER_LANGUAGE", "ServerLanguage"),
   ("VS_CFG_ONLY_WHITELISTED", "OnlyWhitelisted"),
   ("VS_CFG_ANTIABUSE", "AntiAbuse"),
   ("VS_CFG_ALLOW_PVP", "AllowPvP"),
   ("VS_CFG_HOSTED_MODE", "HostedMode"),
   ("VS_CFG_HOSTED_MODE_ALLOW_MODS", "HostedModeAllowMods")]

/-- `load_config`: returns the `yaml.safe_load` result when the
defaults file exists, `{}` otherwise.  The `safe_load` result is
passed in as `parsedDefaults`; for an empty YAML document
`yaml.safe_load` yields Python `None`, i.e. `PyVal.none`. -/
def load_config (defaultsExists : Bool) (parsedDefaults : PyVal) : PyVal :=
  if defaultsExists then parsedDefaults else PyVal.dict []

/-- The truthiness test `value.lower() in ("1", "true", "yes")` used for
the creative-mode override. -/
def creativeTruthy (v : String) : Bool :=
  pyLower v == "1" || pyLower v == "true" || pyLower v == "yes"

/-- The creative-mode special case at the start of
`generate_serverconfig`: when `VS_CFG_ALLOW_CREATIVE_MODE` is present
in the environment, parse it as a boolean and assign it inside
`config["WorldConfig"]`, popping the variable from the environment.
The subscript on a missing `"WorldConfig"` key raises `KeyError`, and
subscripting a non-dict raises `TypeError`;  both are modelled as
`Except.error`. -/
def creativeStep (env : List (String × String)) (config : PyVal) :
    Except String (PyVal × List (String × String)) :=
  match assocGet env "VS_CFG_ALLOW_CREATIVE_MODE" with
  | Option.none => Except.ok (config, env)
  | some v =>
    match config with
    | PyVal.dict es =>
      match assocGet es "WorldConfig" with
      | some (PyVal.dict wc) =>
        Except.ok
          (PyVal.dict (assocSet es "WorldConfig"
             (PyVal.dict (assocSet wc "AllowCreativeMode"
                (PyVal.bool (creativeTruthy v))))),
           assocRemove env "VS_CFG_ALLOW_CREATIVE_MODE")
      | some _ => Except.error "TypeError"
      | Option.none => Except.error "KeyError"
    | _ => Except.error "TypeError"

/-- The dict comprehension
`{self.env_setting_map[k]: os.environ[k] for k in os.environ if k.startswith("VS_CFG_")}`:
collects `(translatedKey, rawValue)` pairs in environment order, and
raises `KeyError` (modelled as `Except.error`) on the first
`VS_CFG_`-prefixed variable missing from the translation table. -/
def buildOverrides (env : List (String × String)) :
    Except String (List (String × String)) :=
  match env with
  | [] => Except.ok []
  | (k, v) :: rest =>
    if pyStartsWith k "VS_CFG_" then
      match assocGet env_setting_map k with
      | some t =>
        match buildOverrides rest with
        | Except.ok ov => Except.ok ((t, v) :: ov)
        | Except.error e => Except.error e
      | Option.none => Except.error "KeyError"
    else buildOverrides rest

/-- `self.config.update(overrides)`: merge the override pairs into the
configuration dict in order, each raw value stored as a Python string. -/
def applyOverrides (es : List (String × PyVal)) (ov : List (String × String)) :
    List (String × PyVal) :=
  ov.foldl (fun acc kv => assocSet acc kv.1 (PyVal.str kv.2)) es

/-- `generate_serverconfig`: creative-mode pre-pass, then the bulk
override pass, then the dict update.  `config.update` on a non-dict
raises `AttributeError`. -/
def generate_serverconfig (env : List (String × String)) (config : PyVal) :
    Except String PyVal :=
  match creativeStep env config with
  | Except.error e => Except.error e
  | Except.ok (cfg, env1) =>
    match buildOverrides env1 with
    | Except.error e => Except.error e
    | Except.ok ov =>
      match cfg with
      | PyVal.dict es => Except.ok (PyVal.dict (applyOverrides es ov))
      | _ => Except.error "AttributeError"

/-- A filesystem path: directory components plus a file name (pathlib's
`parent` and `name`). -/
structure FPath where
  dir : List String
  name : String
deriving DecidableEq

/-- Split a character list at its last `'.'`: returns
`some (before, after)` with the input equal to `before ++ '.' :: after`
and no `'.'` in `after`, or `Option.none` when there is no dot. -/
def splitLastDot : List Char → Option (List Char × List Char)
  | [] => Option.none
  | c :: cs =>
    match splitLastDot cs with
    | some (b, a) => some (c :: b, a)
    | Option.none => if c = '.' then some ([], cs) else Option.none

/-- pathlib's `path.with_suffix(".json.backup")` applied to a file
name: the name's suffix (counted only when its last dot is neither
leading nor trailing, as in `PurePath.suffix`) is replaced by
`".json.backup"`; a name without a suffix gets it appended. -/
def withSuffixName (name : String) : String :=
  match splitLastDot name.data with
  | some (b, a) =>
    if b = [] ∨ a = [] then String.mk (name.data ++ ".json.backup".data)
    else String.mk (b ++ ".json.backup".data)
  | Option.none => String.mk (name.data ++ ".json.backup".data)

/-- `self.config_json_path.with_suffix(".json.backup")`. -/
def backupPath (p : FPath) : FPath := ⟨p.dir, withSuffixName p.name⟩

mutual

/-- `json.dump(config, f)`: serialization of the merged configuration;
the exact indentation of the Python output is abstracted, the
structure is kept. -/
def jsonDump : PyVal → String
  | PyVal.none => "null"
  | PyVal.bool b => cond b "true" "false"
  | PyVal.int n => toString n
  | PyVal.str s => "\x22" ++ s ++ "\x22"
  | PyVal.list xs => "[" ++ jsonDumpSeq xs ++ "]"
  | PyVal.dict es => "\x7b" ++ jsonDumpEntries es ++ "\x7d"

def jsonDumpSeq : List PyVal → String
  | [] => ""
  | [x] => jsonDump x
  | x :: y :: rest => jsonDump x ++ ", " ++ jsonDumpSeq (y :: rest)

def jsonDumpEntries : List (String × PyVal) → String
  | [] => ""
  | [(k, v)] => "\x22" ++ k ++ "\x22: " ++ jsonDump v
  | (k, v) :: e :: rest =>
    "\x22" ++ k ++ "\x22: " ++ jsonDump v ++ ", " ++ jsonDumpEntries (e :: rest)

end

/-- The backup block of `run`: if a file exists at the output path,
remove any pre-existing backup, then rename the output file to the
backup path.  The error case (`rename` on a source that disappeared,
possible only if the backup path equalled the output path) carries the
filesystem state at the exception. -/
def backupStep (fs : List (FPath × String)) (p bp : FPath) :
    Except (List (FPath × String)) (List (FPath × String)) :=
  match assocGet fs p with
  | some _ =>
    let fsA := if (assocGet fs bp).isSome then assocRemove fs bp else fs
    match assocGet fsA p with
    | some c => Except.ok (assocSet (assocRemove fsA p) bp c)
    | Option.none => Except.error fsA
  | Option.none => Except.ok fs

/-- The summary block of `run`: `print` of `config["ServerName"]`,
`config["Port"]` and `config["MaxClients"]` with unguarded indexing;
exit code `0` only when all three keys are present (a missing key
raises `KeyError`, caught by the top-level handler, exit code `1`). -/
def summaryCode (es : List (String × PyVal)) : Nat :=
  if (assocGet es "ServerName").isSome then
    if (assocGet es "Port").isSome then
      if (assocGet es "MaxClients").isSome then 0 else 1
    else 1
  else 1

/-- The default output path `Path(os.getenv("DATAPATH",
"/vintagestory/data")) / "serverconfig.json"` (the `DATAPATH`
environment override is abstracted into the constant). -/
def defaultOutPath : FPath := ⟨["vintagestory", "data"], "serverconfig.json"⟩

/-- `run`: the `VintageStoryConfig.run` entry point, returning the
exit code and the final filesystem contents.  `defaultsExists` is
whether the defaults YAML file exists, `parsedDefaults` its
`yaml.safe_load` result, `argPath` the optional CLI output path.
Directory creation (`mkdir`) has no effect on file contents and is
omitted; the `config_json_path is None` check can never fire and is
omitted. -/
def run (defaultsExists : Bool) (parsedDefaults : PyVal)
    (env : List (String × String)) (argPath : Option FPath)
    (fs : List (FPath × String)) : Nat × List (FPath × String) :=
  let p := argPath.getD defaultOutPath
  if defaultsExists then
    match backupStep fs p (backupPath p) with
    | Except.error fsE => (1, fsE)
    | Except.ok fs1 =>
      match generate_serverconfig env (load_config defaultsExists parsedDefaults) with
      | Except.error _ => (1, fs1)
      | Except.ok cfg =>
        match cfg with
        | PyVal.dict es => (summaryCode es, assocSet fs1 p (jsonDump (PyVal.dict es)))
        | other => (1, assocSet fs1 p (jsonDump other))
  else (1, fs)

/-- Python `s.split(sep)` on a single-character separator (keeps empty
pieces; splitting the empty string yields `[""]`). -/
def splitOnChar (sep : Char) : List Char → List (List Char)
  | [] => [[]]
  | c :: cs =>
    match splitOnChar sep cs with
    | [] => [[]]
    | g :: gs => if c = sep then [] :: g :: gs else (c :: g) :: gs

/-- Python `s.split(sep)` for a one-character separator. -/
def pySplit (s : String) (sep : Char) : List String :=
  (splitOnChar sep s.data).map String.mk

/-- Python `s.strip()`. -/
def pyStrip (s : String) : String :=
  String.mk (((s.data.dropWhile Char.isWhitespace).reverse.dropWhile
    Char.isWhitespace).reverse)

/-- Numeric value of a digit string. -/
def digitsVal (cs : List Char) : Nat :=
  cs.foldl (fun acc c => acc * 10 + (c.toNat - 48)) 0

/-- Python `int(s)` restricted to digit strings, `Option.none`
modelling the `ValueError` raised on anything else (signs and
surrounding whitespace never occur at the call sites). -/
def pyIntDigits (s : String) : Option Nat :=
  if !s.data.isEmpty && s.data.all Char.isDigit then some (digitsVal s.data)
  else Option.none

/-- Nonempty all-digit string, i.e. the regex `\d+`. -/
def isDigitStr (s : String) : Bool :=
  !s.data.isEmpty && s.data.all Char.isDigit

/-- The strict tag pattern `^\d+\.\d+\.\d+$` of `get_last_version`. -/
def isSemverTag (t : String) : Bool :=
  match pySplit t '.' with
  | [a, b, c] => isDigitStr a && isDigitStr b && isDigitStr c
  | _ => false

/-- The sort key `tuple(map(int, v.split('.')))`. -/
def verKey (t : String) : List Nat :=
  (pySplit t '.').map (fun p => (pyIntDigits p).getD 0)

/-- Lexicographic order on Python integer tuples (shorter tuples
compare less when one is a proper front part of the other). -/
def keyLe : List Nat → List Nat → Bool
  | [], _ => true
  | _ :: _, [] => false
  | a :: as1, b :: bs1 =>
    if a < b then true else if a = b then keyLe as1 bs1 else false

/-- The comparison `version_tags.sort(key=...)` sorts by. -/
def tagLe (a b : String) : Prop := keyLe (verKey a) (verKey b) = true

instance : DecidableRel tagLe :=
  fun a b => inferInstanceAs (Decidable (keyLe (verKey a) (verKey b) = true))

/-- The tag list surviving the filter
`[tag for tag in tags if tag and re.match(pattern, tag)]` applied to
the stripped, newline-split `git tag -l` output. -/
def versionTagsOf (out : String) : List String :=
  (pySplit (pyStrip out) '\n').filter (fun t => (!(t == "")) && isSemverTag t)

/-- `get_last_version`: `cmdOut` is the stdout of `git tag -l`
(`Option.none` when the subprocess raises, swallowed into `"0.0.0"`).
The stable ascending sort by numeric tuple is `List.insertionSort`,
and the code returns the final element. -/
def get_last_version (cmdOut : Option String) : String :=
  match cmdOut with
  | Option.none => "0.0.0"
  | some out =>
    let version_tags := versionTagsOf out
    if version_tags = [] then "0.0.0"
    else (List.insertionSort tagLe version_tags).getLastD "0.0.0"

/-- Substring search on character lists (`needle in hay` for Python
strings); second argument is the needle. -/
def listContainsTok : List Char → List Char → Bool
  | [], needle => listIsPrefix needle []
  | c :: cs, needle => listIsPrefix needle (c :: cs) || listContainsTok cs needle

/-- Python `needle in hay`. -/
def pyContains (hay needle : String) : Bool := listContainsTok hay.data needle.data

/-- The scanning loop of `determine_bump`, carrying the `has_minor`
flag; `has_major` short-circuits as a direct `"major"` return (the
source breaks out of the loop and immediately returns).  Commits are
given as `(subject, body)` pairs, the `git show` lookup of
`get_commit_message` being external input. -/
def determineBumpGo : List (String × String) → Bool → String
  | [], has_minor => if has_minor then "minor" else "patch"
  | (subject, body) :: rest, has_minor =>
    if pyContains subject "BREAKING CHANGE:" || pyContains body "BREAKING CHANGE:" then
      "major"
    else if pyStartsWith subject "feat!:" || pyStartsWith subject "fix!:" then
      "major"
    else determineBumpGo rest (has_minor || pyStartsWith subject "feat:")

/-- `determine_bump`. -/
def determine_bump (commits : List (String × String)) : String :=
  determineBumpGo commits false

/-- The per-commit breaking-change test of `determine_bump`'s loop:
the literal `BREAKING CHANGE:` token in subject or body, or a subject
matching `^(feat|fix)!:`. -/
def isBreakingCommit (c : String × String) : Bool :=
  pyContains c.1 "BREAKING CHANGE:" || pyContains c.2 "BREAKING CHANGE:"
    || pyStartsWith c.1 "feat!:" || pyStartsWith c.1 "fix!:"

/-- The per-commit `^feat:` subject test of `determine_bump`'s loop. -/
def isFeatCommit (c : String × String) : Bool := pyStartsWith c.1 "feat:"

/-- The f-string assembling `major`, `minor`, `patch` with dots. -/
def verStr (a b c : Nat) : String :=
  toString a ++ "." ++ toString b ++ "." ++ toString c

/-- `increment_version`; `Option.none` models the exception raised by
`map(int, ...)` / tuple unpacking on a malformed version string. -/
def increment_version (version : String) (bump : String) : Option String :=
  match (pySplit version '.').mapM pyIntDigits with
  | some [major, minor, patch] =>
    if bump = "major" then some (verStr (major + 1) 0 0)
    else if bump = "minor" then some (verStr major (minor + 1) 0)
    else some (verStr major minor (patch + 1))
  | _ => Option.none

/-- `determine_new_version`: `some Option.none` is Python `None`
("no action needed"), `some (some v)` a computed version, and the
outer `Option.none` an exception propagating out of
`increment_version`. -/
def determine_new_version (current_version : String)
    (commits : List (String × String)) : Option (Option String) :=
  match commits with
  | [] => some Option.none
  | _ :: _ =>
    if current_version = "0.0.0" then some (some "0.0.1")
    else
      match increment_version current_version (determine_bump commits) with
      | some v => some (some v)
      | Option.none => Option.none

/-- A node of the working tree walked by `os.walk` in `create_zip`:
a plain file or a directory with its children in listing order. -/
inductive FTree where
  | file (name : String)
  | dir (name : String) (children : List FTree)

/-- The archive name `f"..."` (repo name, dash, version, slash, relative path) for a
file whose path relative to the working-tree root has the given
components. -/
def arcName (repo_name version : String) (path : List String) : String :=
  repo_name ++ "-" ++ version ++ "/" ++ String.intercalate "/" path

/-- The zip entries written by `create_zip`: a depth-first walk of the
working tree from the root, in which directories named `.git` or
`.github` are pruned (the `dirs[:]` filter) so nothing below them is
visited, and every visited file contributes
`(sourcePathComponents, archiveName)`. -/
def create_zip_entries (repo_name version : String) :
    List String → List FTree → List (List String × String)
  | _, [] => []
  | pref, FTree.file name :: rest =>
    (pref ++ [name], arcName repo_name version (pref ++ [name]))
      :: create_zip_entries repo_name version pref rest
  | pref, FTree.dir name ch :: rest =>
    if name = ".git" ∨ name = ".github" then
      create_zip_entries repo_name version pref rest
    else
      create_zip_entries repo_name version (pref ++ [name]) ch
        ++ create_zip_entries repo_name version pref rest

/-- All file paths of a working tree, with no exclusion: the files
`create_zip` would see were nothing pruned. -/
def allFiles : List String → List FTree → List (List String)
  | _, [] => []
  | pref, FTree.file name :: rest => (pref ++ [name]) :: allFiles pref rest
  | pref, FTree.dir name ch :: rest =>
    allFiles (pref ++ [name]) ch ++ allFiles pref rest

/-- The configuration keys an environment can touch through
`generate_serverconfig`: `"WorldConfig"` for the creative-mode
variable, and the translated key for every other `VS_CFG_`-prefixed
variable known to the table. -/
def overriddenKeys (env : List (String × String)) : List String :=
  env.filterMap (fun kv =>
    if kv.1 = "VS_CFG_ALLOW_CREATIVE_MODE" then some "WorldConfig"
    else if pyStartsWith kv.1 "VS_CFG_" then assocGet env_setting_map kv.1
    else Option.none)

section AssocLemmas

variable {α β : Type} [DecidableEq α]

theorem assocGet_set_same (l : List (α × β)) (k : α) (v : β) :
    assocGet (assocSet l k v) k = some v := by
  induction l with
  | nil => simp [assocGet, assocSet]
  | cons hd tl ih =>
    obtain ⟨k1, v1⟩ := hd
    by_cases h : k1 = k <;> simp [assocGet, assocSet, h, ih]

theorem assocGet_set_other (l : List (α × β)) (k k2 : α) (v : β) (h : k2 ≠ k) :
    assocGet (assocSet l k v) k2 = assocGet l k2 := by
  induction l with
  | nil => simp [assocGet, assocSet, Ne.symm h]
  | cons hd tl ih =>
    obtain ⟨k1, v1⟩ := hd
    by_cases h1 : k1 = k
    · subst h1
      simp [assocGet, assocSet, Ne.symm h]
    · simp [assocGet, assocSet, h1, ih]

theorem assocGet_remove_other (l : List (α × β)) (k k2 : α) (h : k2 ≠ k) :
    assocGet (assocRemove l k) k2 = assocGet l k2 := by
  induction l with
  | nil => simp [assocRemove]
  | cons hd tl ih =>
    obtain ⟨k1, v1⟩ := hd
    by_cases h1 : k1 = k
    · subst h1
      simp [assocRemove, assocGet, Ne.symm h]
    · simp [assocRemove, assocGet, h1, ih]

theorem assocGet_mem {l : List (α × β)} {k : α} {v : β}
    (h : assocGet l k = some v) : (k, v) ∈ l := by
  induction l with
  | nil => simp [assocGet] at h
  | cons hd tl ih =>
    obtain ⟨k1, v1⟩ := hd
    by_cases h1 : k1 = k
    · subst h1
      simp [assocGet] at h
      simp [h]
    · simp only [assocGet, if_neg h1] at h
      exact List.mem_cons_of_mem _ (ih h)

theorem not_mem_of_assocGet_eq_none {l : List (α × β)} {k : α}
    (h : assocGet l k = Option.none) (v : β) : (k, v) ∉ l := by
  induction l with
  | nil => simp
  | cons hd tl ih =>
    obtain ⟨k1, v1⟩ := hd
    by_cases h1 : k1 = k
    · subst h1
      simp [assocGet] at h
    · simp only [assocGet, if_neg h1] at h
      intro hm
      rcases List.mem_cons.mp hm with he | he
      · exact h1 (congrArg Prod.fst he).symm
      · exact ih h he

theorem mem_assocRemove_of_mem {l : List (α × β)} {k2 : α} {v : β} (k : α)
    (hm : (k2, v) ∈ l) (hne : k2 ≠ k) : (k2, v) ∈ assocRemove l k := by
  induction l with
  | nil => simp at hm
  | cons hd tl ih =>
    obtain ⟨k1, v1⟩ := hd
    by_cases h1 : k1 = k
    · subst h1
      simp only [assocRemove, if_pos rfl]
      rcases List.mem_cons.mp hm with he | he
      · exact absurd (congrArg Prod.fst he) hne
      · exact he
    · simp only [assocRemove, if_neg h1]
      rcases List.mem_cons.mp hm with he | he
      · exact he ▸ List.mem_cons_self _ _
      · exact List.mem_cons_of_mem _ (ih he)

theorem assocRemove_sublist (l : List (α × β)) (k : α) :
    (assocRemove l k).Sublist l := by
  induction l with
  | nil => simp [assocRemove]
  | cons hd tl ih =>
    obtain ⟨k1, v1⟩ := hd
    by_cases h1 : k1 = k
    · simp only [assocRemove, if_pos h1]
      exact List.sublist_cons_self _ _
    · simp only [assocRemove, if_neg h1]
      exact ih.cons₂ _

theorem not_mem_assocRemove_self {l : List (α × β)} {k : α}
    (hnd : (l.map Prod.fst).Nodup) (v : β) : (k, v) ∉ assocRemove l k := by
  induction l with
  | nil => simp [assocRemove]
  | cons hd tl ih =>
    obtain ⟨k1, v1⟩ := hd
    simp only [List.map_cons, List.nodup_cons] at hnd
    by_cases h1 : k1 = k
    · subst h1
      simp only [assocRemove, if_pos rfl]
      intro hm
      exact hnd.1 (List.mem_map.mpr ⟨(k1, v), hm, rfl⟩)
    · simp only [assocRemove, if_neg h1]
      intro hm
      rcases List.mem_cons.mp hm with he | he
      · exact h1 (congrArg Prod.fst he).symm
      · exact ih hnd.2 he

omit [DecidableEq α] in
theorem key_inj_of_nodup_snd {l : List (α × β)} {k1 k2 : α} {t : β}
    (hnd : (l.map Prod.snd).Nodup) (h1 : (k1, t) ∈ l) (h2 : (k2, t) ∈ l) :
    k1 = k2 := by
  induction l with
  | nil => simp at h1
  | cons hd tl ih =>
    obtain ⟨ka, va⟩ := hd
    simp only [List.map_cons, List.nodup_cons] at hnd
    rcases List.mem_cons.mp h1 with ha | ha <;>
      rcases List.mem_cons.mp h2 with hb | hb
    · exact (congrArg Prod.fst ha).trans (congrArg Prod.fst hb).symm
    · exfalso
      have hv : t = va := congrArg Prod.snd ha
      apply hnd.1
      rw [← hv]
      exact List.mem_map.mpr ⟨(k2, t), hb, rfl⟩
    · exfalso
      have hv : t = va := congrArg Prod.snd hb
      apply hnd.1
      rw [← hv]
      exact List.mem_map.mpr ⟨(k1, t), ha, rfl⟩
    · exact ih hnd.2 ha hb

end AssocLemmas

theorem splitLastDot_none_not_mem :
    ∀ cs, splitLastDot cs = Option.none → '.' ∉ cs
  | [], _ => by simp
  | c :: cs1, h => by
    simp only [splitLastDot] at h
    split at h
    · exact Option.noConfusion h
    · next hs =>
      by_cases hc : c = '.'
      · rw [if_pos hc] at h
        exact Option.noConfusion h
      · intro hmem
        rcases List.mem_cons.mp hmem with h1 | h1
        · exact hc h1.symm
        · exact splitLastDot_none_not_mem cs1 hs h1

theorem splitLastDot_spec :
    ∀ cs b a, splitLastDot cs = some (b, a) → cs = b ++ '.' :: a ∧ '.' ∉ a
  | [], b, a, h => by simp [splitLastDot] at h
  | c :: cs1, b, a, h => by
    simp only [splitLastDot] at h
    split at h
    · next b1 a1 hs =>
      obtain ⟨hb, ha⟩ := Prod.mk.injEq .. ▸ Option.some.injEq .. ▸ h
      obtain ⟨hcs, hna⟩ := splitLastDot_spec cs1 b1 a1 hs
      subst hb
      subst ha
      exact ⟨by simp [hcs], hna⟩
    · next hs =>
      by_cases hc : c = '.'
      · rw [if_pos hc] at h
        obtain ⟨hb, ha⟩ := Prod.mk.injEq .. ▸ Option.some.injEq .. ▸ h
        subst hb
        subst ha
        exact ⟨by simp [hc], splitLastDot_none_not_mem cs1 hs⟩
      · rw [if_neg hc] at h
        exact Option.noConfusion h

theorem withSuffixName_ne (name : String) : withSuffixName name ≠ name := by
  unfold withSuffixName
  split
  · next b a hs =>
    obtain ⟨hcs, hna⟩ := splitLastDot_spec name.data b a hs
    by_cases hba : b = [] ∨ a = []
    · rw [if_pos hba]
      intro he
      have hd : name.data ++ ".json.backup".data = name.data := congrArg String.data he
      have hlen := congrArg List.length hd
      have h12 : (".json.backup".data).length = 12 := rfl
      rw [List.length_append, h12] at hlen
      omega
    · rw [if_neg hba]
      intro he
      have hd : b ++ ".json.backup".data = name.data := congrArg String.data he
      rw [hcs] at hd
      have hta : ".json.backup".data = '.' :: a := List.append_cancel_left hd
      have hm : '.' ∈ (".json.backup".data).tail := by decide
      rw [hta] at hm
      simp only [List.tail_cons] at hm
      exact hna hm
  · intro he
    have hd : name.data ++ ".json.backup".data = name.data := congrArg String.data he
    have hlen := congrArg List.length hd
    have h12 : (".json.backup".data).length = 12 := rfl
    rw [List.length_append, h12] at hlen
    omega

theorem backupPath_ne (p : FPath) : backupPath p ≠ p :=
  fun he => withSuffixName_ne p.name (congrArg FPath.name he)

theorem backupStep_of_none {fs : List (FPath × String)} {p : FPath} (bp : FPath)
    (hget : assocGet fs p = Option.none) : backupStep fs p bp = Except.ok fs := by
  unfold backupStep
  rw [hget]

theorem backupStep_spec {fs : List (FPath × String)} {p bp : FPath} {c : String}
    (hget : assocGet fs p = some c) (hne : bp ≠ p) :
    ∃ fs1, backupStep fs p bp = Except.ok fs1
      ∧ assocGet fs1 bp = some c
      ∧ ∀ q, q ≠ p → q ≠ bp → assocGet fs1 q = assocGet fs q := by
  have hA : assocGet (if (assocGet fs bp).isSome then assocRemove fs bp else fs) p
      = some c := by
    split
    · rw [assocGet_remove_other fs bp p (Ne.symm hne)]
      exact hget
    · exact hget
  refine ⟨assocSet (assocRemove
      (if (assocGet fs bp).isSome then assocRemove fs bp else fs) p) bp c,
    ?_, assocGet_set_same .., ?_⟩
  · simp only [backupStep, hget, hA]
  · intro q hqp hqbp
    rw [assocGet_set_other _ _ _ _ hqbp,
      assocGet_remove_other _ _ _ hqp]
    split
    · exact assocGet_remove_other fs bp q hqbp
    · rfl

theorem assocGet_eq_none_of_forall_not_mem {α β : Type} [DecidableEq α]
    {l : List (α × β)} {k : α} (h : ∀ v, (k, v) ∉ l) :
    assocGet l k = Option.none := by
  induction l with
  | nil => rfl
  | cons hd tl ih =>
    obtain ⟨k1, v1⟩ := hd
    by_cases h1 : k1 = k
    · exact absurd (h1 ▸ List.mem_cons_self (k1, v1) tl) (h1 ▸ h v1)
    · simp only [assocGet, if_neg h1]
      exact ih (fun v hm => h v (List.mem_cons_of_mem _ hm))

theorem env_setting_map_snd_nodup : (env_setting_map.map Prod.snd).Nodup := by
  decide

theorem buildOverrides_mem {env ov : List (String × String)}
    (h : buildOverrides env = Except.ok ov) :
    ∀ k v t, (k, v) ∈ env → pyStartsWith k "VS_CFG_" = true →
      assocGet env_setting_map k = some t → (t, v) ∈ ov := by
  induction env generalizing ov with
  | nil => intro k v t hm _ _; simp at hm
  | cons hd rest ih =>
    obtain ⟨k0, v0⟩ := hd
    intro k v t hm hpre htab
    simp only [buildOverrides] at h
    by_cases hp : pyStartsWith k0 "VS_CFG_" = true
    · rw [if_pos hp] at h
      cases htab0 : assocGet env_setting_map k0 with
      | none => rw [htab0] at h; exact Except.noConfusion h
      | some t0 =>
        rw [htab0] at h
        cases hrec : buildOverrides rest with
        | error e => rw [hrec] at h; exact Except.noConfusion h
        | ok ov0 =>
          rw [hrec] at h
          injection h with h1
          subst h1
          rcases List.mem_cons.mp hm with he | he
          · have hk : k = k0 := congrArg Prod.fst he
            have hv : v = v0 := congrArg Prod.snd he
            rw [hk, htab0] at htab
            injection htab with ht
            rw [← hv, ht]
            exact List.mem_cons_self _ _
          · exact List.mem_cons_of_mem _ (ih hrec k v t he hpre htab)
    · rw [if_neg hp] at h
      rcases List.mem_cons.mp hm with he | he
      · have hk : k = k0 := congrArg Prod.fst he
        rw [hk] at hpre
        exact absurd hpre hp
      · exact ih h k v t he hpre htab

theorem buildOverrides_mem_rev {env ov : List (String × String)}
    (h : buildOverrides env = Except.ok ov) :
    ∀ t v, (t, v) ∈ ov → ∃ k, (k, v) ∈ env ∧ pyStartsWith k "VS_CFG_" = true ∧
      assocGet env_setting_map k = some t := by
  induction env generalizing ov with
  | nil =>
    intro t v hm
    simp only [buildOverrides] at h
    injection h with h1
    rw [← h1] at hm
    simp at hm
  | cons hd rest ih =>
    obtain ⟨k0, v0⟩ := hd
    intro t v hm
    simp only [buildOverrides] at h
    by_cases hp : pyStartsWith k0 "VS_CFG_" = true
    · rw [if_pos hp] at h
      cases htab0 : assocGet env_setting_map k0 with
      | none => rw [htab0] at h; exact Except.noConfusion h
      | some t0 =>
        rw [htab0] at h
        cases hrec : buildOverrides rest with
        | error e => rw [hrec] at h; exact Except.noConfusion h
        | ok ov0 =>
          rw [hrec] at h
          injection h with h1
          rw [← h1] at hm
          rcases List.mem_cons.mp hm with he | he
          · have ht : t = t0 := congrArg Prod.fst he
            have hv : v = v0 := congrArg Prod.snd he
            exact ⟨k0, by simp [hv], hp, by rw [htab0, ht]⟩
          · obtain ⟨k, hk1, hk2, hk3⟩ := ih hrec t v he
            exact ⟨k, List.mem_cons_of_mem _ hk1, hk2, hk3⟩
    · rw [if_neg hp] at h
      obtain ⟨k, hk1, hk2, hk3⟩ := ih h t v hm
      exact ⟨k, List.mem_cons_of_mem _ hk1, hk2, hk3⟩

theorem buildOverrides_nodup {env ov : List (String × String)}
    (h : buildOverrides env = Except.ok ov)
    (hnd : (env.map Prod.fst).Nodup) : (ov.map Prod.fst).Nodup := by
  induction env generalizing ov with
  | nil =>
    simp only [buildOverrides] at h
    injection h with h1
    rw [← h1]
    simp
  | cons hd rest ih =>
    obtain ⟨k0, v0⟩ := hd
    simp only [List.map_cons, List.nodup_cons] at hnd
    simp only [buildOverrides] at h
    by_cases hp : pyStartsWith k0 "VS_CFG_" = true
    · rw [if_pos hp] at h
      cases htab0 : assocGet env_setting_map k0 with
      | none => rw [htab0] at h; exact Except.noConfusion h
      | some t0 =>
        rw [htab0] at h
        cases hrec : buildOverrides rest with
        | error e => rw [hrec] at h; exact Except.noConfusion h
        | ok ov0 =>
          rw [hrec] at h
          injection h with h1
          rw [← h1]
          simp only [List.map_cons, List.nodup_cons]
          refine ⟨?_, ih hrec hnd.2⟩
          intro hmem
          obtain ⟨⟨t1, v1⟩, hm1, hm2⟩ := List.mem_map.mp hmem
          obtain ⟨k1, hk1, _, hk3⟩ := buildOverrides_mem_rev hrec t1 v1 hm1
          have hkk : k0 = k1 := by
            refine key_inj_of_nodup_snd env_setting_map_snd_nodup
              (assocGet_mem htab0) ?_
            have hm2a : t1 = t0 := hm2
            rw [hm2a] at hk3
            exact assocGet_mem hk3
          exact hnd.1 (hkk ▸ List.mem_map.mpr ⟨(k1, v1), hk1, rfl⟩)
    · rw [if_neg hp] at h
      exact ih h hnd.2

theorem applyOverrides_cons (es : List (String × PyVal)) (t0 v0 : String)
    (tl : List (String × String)) :
    applyOverrides es ((t0, v0) :: tl)
      = applyOverrides (assocSet es t0 (PyVal.str v0)) tl := rfl

theorem applyOverrides_not_mem {es : List (String × PyVal)}
    {ov : List (String × String)} {t : String} (h : t ∉ ov.map Prod.fst) :
    assocGet (applyOverrides es ov) t = assocGet es t := by
  induction ov generalizing es with
  | nil => rfl
  | cons hd tl ih =>
    obtain ⟨t0, v0⟩ := hd
    simp only [List.map_cons, List.mem_cons] at h
    push_neg at h
    rw [applyOverrides_cons, ih h.2, assocGet_set_other _ _ _ _ h.1]

theorem applyOverrides_mem {es : List (String × PyVal)}
    {ov : List (String × String)} {t v : String}
    (hnd : (ov.map Prod.fst).Nodup) (hm : (t, v) ∈ ov) :
    assocGet (applyOverrides es ov) t = some (PyVal.str v) := by
  induction ov generalizing es with
  | nil => simp at hm
  | cons hd tl ih =>
    obtain ⟨t0, v0⟩ := hd
    simp only [List.map_cons, List.nodup_cons] at hnd
    rcases List.mem_cons.mp hm with he | he
    · have ht : t = t0 := congrArg Prod.fst he
      have hv : v = v0 := congrArg Prod.snd he
      rw [applyOverrides_cons, applyOverrides_not_mem (ht ▸ hnd.1), ht, hv]
      exact assocGet_set_same ..
    · rw [applyOverrides_cons]
      exact ih hnd.2 he

theorem creativeStep_cases {env : List (String × String)}
    {es : List (String × PyVal)} {cfg1 : PyVal} {env1 : List (String × String)}
    (h : creativeStep env (PyVal.dict es) = Except.ok (cfg1, env1)) :
    ∃ es1, cfg1 = PyVal.dict es1
      ∧ (∀ k, k ≠ "WorldConfig" → assocGet es1 k = assocGet es k)
      ∧ (∀ k v, (k, v) ∈ env1 → (k, v) ∈ env)
      ∧ (∀ k v, (k, v) ∈ env → k ≠ "VS_CFG_ALLOW_CREATIVE_MODE" → (k, v) ∈ env1)
      ∧ ((env.map Prod.fst).Nodup → (env1.map Prod.fst).Nodup)
      ∧ ((env.map Prod.fst).Nodup →
          ∀ v, ("VS_CFG_ALLOW_CREATIVE_MODE", v) ∉ env1)
      ∧ (assocGet env "VS_CFG_ALLOW_CREATIVE_MODE" = Option.none → es1 = es) := by
  cases hv : assocGet env "VS_CFG_ALLOW_CREATIVE_MODE" with
  | none =>
    simp only [creativeStep, hv] at h
    injection h with h1
    obtain ⟨hc, he⟩ := Prod.mk.injEq .. ▸ h1
    refine ⟨es, hc.symm, fun _ _ => rfl, ?_, ?_, ?_, ?_, fun _ => rfl⟩
    · intro k v hm
      rw [he]
      exact hm
    · intro k v hm _
      rw [← he]
      exact hm
    · intro hnd
      rw [← he]
      exact hnd
    · intro _ v
      rw [he] at hv
      exact not_mem_of_assocGet_eq_none hv v
  | some v0 =>
    cases hwc : assocGet es "WorldConfig" with
    | none =>
      simp only [creativeStep, hv, hwc] at h
      exact Except.noConfusion h
    | some w =>
      cases w with
      | dict wc =>
        simp only [creativeStep, hv, hwc] at h
        injection h with h1
        obtain ⟨hc, he⟩ := Prod.mk.injEq .. ▸ h1
        refine ⟨assocSet es "WorldConfig"
          (PyVal.dict (assocSet wc "AllowCreativeMode"
            (PyVal.bool (creativeTruthy v0)))), hc.symm, ?_, ?_, ?_, ?_, ?_, ?_⟩
        · intro k hk
          exact assocGet_set_other _ _ _ _ hk
        · intro k v hm
          rw [← he] at hm
          exact (assocRemove_sublist env _).subset hm
        · intro k v hm hk
          rw [← he]
          exact mem_assocRemove_of_mem _ hm hk
        · intro hnd
          rw [← he]
          exact List.Nodup.sublist ((assocRemove_sublist env _).map Prod.fst) hnd
        · intro hnd v
          rw [← he]
          exact not_mem_assocRemove_self hnd v
        · intro habs
          exact Option.noConfusion habs
      | none =>
        simp only [creativeStep, hv, hwc] at h
        exact Except.noConfusion h
      | bool b =>
        simp only [creativeStep, hv, hwc] at h
        exact Except.noConfusion h
      | int n =>
        simp only [creativeStep, hv, hwc] at h
        exact Except.noConfusion h
      | str s =>
        simp only [creativeStep, hv, hwc] at h
        exact Except.noConfusion h
      | list xs =>
        simp only [creativeStep, hv, hwc] at h
        exact Except.noConfusion h


theorem buildOverrides_keys_sub {env ov : List (String × String)}
    (h : buildOverrides env = Except.ok ov) :
    ∀ t ∈ ov.map Prod.fst, t ∈ env_setting_map.map Prod.snd := by
  intro t hmem
  obtain ⟨⟨t1, v1⟩, hm1, hm2⟩ := List.mem_map.mp hmem
  have hm2a : t1 = t := hm2
  obtain ⟨k, _, _, hk3⟩ := buildOverrides_mem_rev h t1 v1 hm1
  exact hm2a ▸ List.mem_map.mpr ⟨(k, t1), assocGet_mem hk3, rfl⟩

theorem worldconfig_not_translated :
    "WorldConfig" ∉ env_setting_map.map Prod.snd := by
  decide

/-- C3: after a successful `generate_serverconfig`, every
`VS_CFG_`-prefixed environment variable in the translation table other
than the creative-mode one sets the translated key to its raw string
value, every key the environment does not override keeps its defaults
value, and the spec's worked example merges as stated. -/
theorem c3_overrides_and_defaults
    (env : List (String × String)) (es es2 : List (String × PyVal))
    (hnd : (env.map Prod.fst).Nodup)
    (h : generate_serverconfig env (PyVal.dict es) = Except.ok (PyVal.dict es2)) :
    (∀ k v t, (k, v) ∈ env → k ≠ "VS_CFG_ALLOW_CREATIVE_MODE" →
      pyStartsWith k "VS_CFG_" = true → assocGet env_setting_map k = some t →
      assocGet es2 t = some (PyVal.str v))
    ∧ (∀ k0, k0 ∉ overriddenKeys env → assocGet es2 k0 = assocGet es k0)
    ∧ generate_serverconfig [("VS_CFG_SERVER_NAME", "B")]
        (PyVal.dict [("ServerName", PyVal.str "A"), ("Port", PyVal.int 1234)])
      = Except.ok (PyVal.dict
          [("ServerName", PyVal.str "B"), ("Port", PyVal.int 1234)]) := by
  cases hcs : creativeStep env (PyVal.dict es) with
  | error e =>
    simp only [generate_serverconfig, hcs] at h
    exact Except.noConfusion h
  | ok pr =>
    obtain ⟨cfg1, env1⟩ := pr
    obtain ⟨es1, hc1, hpres, hsub, hkeep, hnd1, hnocr, hnone⟩ := creativeStep_cases hcs
    subst hc1
    cases hbo : buildOverrides env1 with
    | error e =>
      simp only [generate_serverconfig, hcs, hbo] at h
      exact Except.noConfusion h
    | ok ov =>
      simp only [generate_serverconfig, hcs, hbo] at h
      injection h with h1
      injection h1 with h2
      refine ⟨?_, ?_, rfl⟩
      · intro k v t hm hkcr hpre htab
        have hm1 : (k, v) ∈ env1 := hkeep k v hm hkcr
        have hov : (t, v) ∈ ov := buildOverrides_mem hbo k v t hm1 hpre htab
        have hovnd : (ov.map Prod.fst).Nodup := buildOverrides_nodup hbo (hnd1 hnd)
        rw [← h2]
        exact applyOverrides_mem hovnd hov
      · intro k0 hk0
        have hknotov : k0 ∉ ov.map Prod.fst := by
          intro hmem
          obtain ⟨⟨t1, v1⟩, hm1, hm2⟩ := List.mem_map.mp hmem
          have hm2a : t1 = k0 := hm2
          obtain ⟨k, hk1, hk2, hk3⟩ := buildOverrides_mem_rev hbo t1 v1 hm1
          have hkenv : (k, v1) ∈ env := hsub k v1 hk1
          have hkcr : k ≠ "VS_CFG_ALLOW_CREATIVE_MODE" := by
            intro he
            exact hnocr hnd v1 (he ▸ hk1)
          apply hk0
          unfold overriddenKeys
          refine List.mem_filterMap.mpr ⟨(k, v1), hkenv, ?_⟩
          simp only [if_neg hkcr, hk2, if_pos]
          rw [← hm2a]
          exact hk3
        rw [← h2, applyOverrides_not_mem hknotov]
        by_cases hwc : k0 = "WorldConfig"
        · have hcrnone :
              assocGet env "VS_CFG_ALLOW_CREATIVE_MODE" = Option.none := by
            apply assocGet_eq_none_of_forall_not_mem
            intro v hmv
            apply hk0
            unfold overriddenKeys
            refine List.mem_filterMap.mpr
              ⟨("VS_CFG_ALLOW_CREATIVE_MODE", v), hmv, ?_⟩
            rw [hwc]
            simp
          rw [hnone hcrnone]
        · exact hpres k0 hwc

theorem c3_overrides_and_defaults_witness :
    assocGet [("ServerName", PyVal.str "B"), ("Port", PyVal.int 1234)] "ServerName"
      = some (PyVal.str "B")
    ∧ assocGet [("ServerName", PyVal.str "B"), ("Port", PyVal.int 1234)] "Port"
      = assocGet [("ServerName", PyVal.str "A"), ("Port", PyVal.int 1234)] "Port" := by
  have h := c3_overrides_and_defaults [("VS_CFG_SERVER_NAME", "B")]
    [("ServerName", PyVal.str "A"), ("Port", PyVal.int 1234)]
    [("ServerName", PyVal.str "B"), ("Port", PyVal.int 1234)]
    (by decide) rfl
  refine ⟨h.1 "VS_CFG_SERVER_NAME" "B" "ServerName" ?_ ?_ ?_ ?_, h.2.1 "Port" ?_⟩
  · exact List.mem_cons_self _ _
  · decide
  · decide
  · rfl
  · decide

/-- C1 counterexample: the boolean-typed field `Upnp` (boolean in the
defaults) is overridden by `VS_CFG_SERVER_UPNP=true`, yet the merged
configuration holds the raw Python string `"true"`, not a boolean. -/
theorem c1_boolean_override_counterexample :
    generate_serverconfig [("VS_CFG_SERVER_UPNP", "true")]
      (PyVal.dict [("Upnp", PyVal.bool false)])
      = Except.ok (PyVal.dict [("Upnp", PyVal.str "true")])
    ∧ PyVal.str "true" ≠ PyVal.bool true
    ∧ PyVal.str "true" ≠ PyVal.bool false :=
  ⟨rfl, fun h => PyVal.noConfusion h, fun h => PyVal.noConfusion h⟩

/-- C1 (amended): only the creative-mode override is normalized to an
actual boolean (case-insensitive `"1"`/`"true"`/`"yes"` map to true,
anything else to false) and stored inside `WorldConfig`; every other
override, boolean-typed fields included, is merged as the raw string. -/
theorem c1_creative_only_normalized
    (env : List (String × String)) (es es2 wc : List (String × PyVal))
    (v : String)
    (hv : assocGet env "VS_CFG_ALLOW_CREATIVE_MODE" = some v)
    (hwc : assocGet es "WorldConfig" = some (PyVal.dict wc))
    (h : generate_serverconfig env (PyVal.dict es) = Except.ok (PyVal.dict es2)) :
    (∃ wc2, assocGet es2 "WorldConfig" = some (PyVal.dict wc2)
      ∧ assocGet wc2 "AllowCreativeMode" = some (PyVal.bool (creativeTruthy v)))
    ∧ (creativeTruthy v = true ↔
        (pyLower v = "1" ∨ pyLower v = "true" ∨ pyLower v = "yes"))
    ∧ generate_serverconfig [("VS_CFG_SERVER_UPNP", "TRUE")]
        (PyVal.dict [("Upnp", PyVal.bool false)])
      = Except.ok (PyVal.dict [("Upnp", PyVal.str "TRUE")]) := by
  cases hbo : buildOverrides (assocRemove env "VS_CFG_ALLOW_CREATIVE_MODE") with
  | error e =>
    simp only [generate_serverconfig, creativeStep, hv, hwc, hbo] at h
    exact Except.noConfusion h
  | ok ov =>
    simp only [generate_serverconfig, creativeStep, hv, hwc, hbo] at h
    injection h with h1
    injection h1 with h2
    refine ⟨⟨assocSet wc "AllowCreativeMode" (PyVal.bool (creativeTruthy v)),
        ?_, assocGet_set_same ..⟩, ?_, rfl⟩
    · have hknotov : "WorldConfig" ∉ ov.map Prod.fst := by
        intro hmem
        exact worldconfig_not_translated (buildOverrides_keys_sub hbo _ hmem)
      rw [← h2, applyOverrides_not_mem hknotov]
      exact assocGet_set_same ..
    · simp [creativeTruthy, or_assoc]

theorem c1_creative_only_normalized_witness :
    (∃ wc2, assocGet
        [("WorldConfig", PyVal.dict [("AllowCreativeMode", PyVal.bool true)])]
        "WorldConfig" = some (PyVal.dict wc2)
      ∧ assocGet wc2 "AllowCreativeMode"
          = some (PyVal.bool (creativeTruthy "YeS")))
    ∧ (creativeTruthy "YeS" = true ↔
        (pyLower "YeS" = "1" ∨ pyLower "YeS" = "true" ∨ pyLower "YeS" = "yes"))
    ∧ generate_serverconfig [("VS_CFG_SERVER_UPNP", "TRUE")]
        (PyVal.dict [("Upnp", PyVal.bool false)])
      = Except.ok (PyVal.dict [("Upnp", PyVal.str "TRUE")]) :=
  c1_creative_only_normalized [("VS_CFG_ALLOW_CREATIVE_MODE", "YeS")]
    [("WorldConfig", PyVal.dict [])]
    [("WorldConfig", PyVal.dict [("AllowCreativeMode", PyVal.bool true)])]
    [] "YeS" rfl rfl rfl

/-- C2 (code-bug evidence): when the defaults file exists but holds an
empty document, `yaml.safe_load` yields `None` and `load_config`
returns it unchanged — Python `None`, not the empty mapping its own
`Dict` annotation and the missing-file branch promise; the empty
mapping is produced only when the file does not exist. -/
theorem c2_load_config_empty_doc :
    load_config true PyVal.none = PyVal.none
    ∧ load_config false PyVal.none = PyVal.dict [] :=
  ⟨rfl, rfl⟩

theorem generate_ok_dict {env : List (String × String)} {config cfg : PyVal}
    (h : generate_serverconfig env config = Except.ok cfg) :
    ∃ es, cfg = PyVal.dict es := by
  cases hcs : creativeStep env config with
  | error e =>
    simp only [generate_serverconfig, hcs] at h
    exact Except.noConfusion h
  | ok pr =>
    obtain ⟨cfg1, env1⟩ := pr
    cases hbo : buildOverrides env1 with
    | error e =>
      simp only [generate_serverconfig, hcs, hbo] at h
      exact Except.noConfusion h
    | ok ov =>
      simp only [generate_serverconfig, hcs, hbo] at h
      cases cfg1 with
      | dict es =>
        injection h with h1
        exact ⟨applyOverrides es ov, h1.symm⟩
      | none => exact Except.noConfusion h
      | bool b => exact Except.noConfusion h
      | int n => exact Except.noConfusion h
      | str s => exact Except.noConfusion h
      | list xs => exact Except.noConfusion h

/-- C4 counterexample: with the CLI output path `foo.txt`, the file
that existed there is renamed by `with_suffix(".json.backup")` to
`foo.json.backup` — the `.txt` extension is replaced, not suffixed —
so after a successful run no file exists at `foo.txt.backup`, the
output path plus the `.backup` suffix the claim describes. -/
theorem c4_backup_counterexample :
    (run true (PyVal.dict [("ServerName", PyVal.str "A"), ("Port", PyVal.int 42),
        ("MaxClients", PyVal.int 16)]) [] (some ⟨[], "foo.txt"⟩)
        [(⟨[], "foo.txt"⟩, "old")]).1 = 0
    ∧ assocGet (run true (PyVal.dict [("ServerName", PyVal.str "A"),
        ("Port", PyVal.int 42), ("MaxClients", PyVal.int 16)]) []
        (some ⟨[], "foo.txt"⟩) [(⟨[], "foo.txt"⟩, "old")]).2
        ⟨[], "foo.txt.backup"⟩ = Option.none
    ∧ assocGet (run true (PyVal.dict [("ServerName", PyVal.str "A"),
        ("Port", PyVal.int 42), ("MaxClients", PyVal.int 16)]) []
        (some ⟨[], "foo.txt"⟩) [(⟨[], "foo.txt"⟩, "old")]).2
        ⟨[], "foo.json.backup"⟩ = some "old" :=
  ⟨rfl, rfl, rfl⟩

/-- C4 (amended): a pre-existing file at the output path is renamed to
the path with its name's extension replaced by `.json.backup` (which
equals the output path plus `.backup` whenever the name ends in
`.json`, as the default does), any pre-existing backup being removed
first; after a successful run the backup holds the prior content and
the output path holds the newly generated JSON. -/
theorem c4_backup_amended
    (defaults : PyVal) (env : List (String × String))
    (fs : List (FPath × String)) (p : FPath) (c : String)
    (hprior : assocGet fs p = some c)
    (hcode : (run true defaults env (some p) fs).1 = 0) :
    assocGet (run true defaults env (some p) fs).2 (backupPath p) = some c
    ∧ ∃ es, generate_serverconfig env (load_config true defaults)
        = Except.ok (PyVal.dict es)
      ∧ assocGet (run true defaults env (some p) fs).2 p
          = some (jsonDump (PyVal.dict es)) := by
  have hne : backupPath p ≠ p := backupPath_ne p
  obtain ⟨fs1, hbs, hbp, hother⟩ := backupStep_spec hprior hne
  cases hgen : generate_serverconfig env (load_config true defaults) with
  | error e =>
    exfalso
    have hrun : run true defaults env (some p) fs = (1, fs1) := by
      simp [run, hbs, hgen]
    rw [hrun] at hcode
    exact Nat.noConfusion hcode
  | ok cfg =>
    obtain ⟨es, rfl⟩ := generate_ok_dict hgen
    have hrun : run true defaults env (some p) fs
        = (summaryCode es, assocSet fs1 p (jsonDump (PyVal.dict es))) := by
      simp [run, hbs, hgen]
    rw [hrun]
    refine ⟨?_, es, rfl, assocGet_set_same ..⟩
    rw [assocGet_set_other _ _ _ _ hne]
    exact hbp

theorem c4_backup_amended_witness :
    assocGet (run true (PyVal.dict [("ServerName", PyVal.str "A"),
        ("Port", PyVal.int 42), ("MaxClients", PyVal.int 16)]) []
        (some ⟨[], "cfg.json"⟩) [(⟨[], "cfg.json"⟩, "old")]).2
        (backupPath ⟨[], "cfg.json"⟩) = some "old"
    ∧ ∃ es, generate_serverconfig []
        (load_config true (PyVal.dict [("ServerName", PyVal.str "A"),
          ("Port", PyVal.int 42), ("MaxClients", PyVal.int 16)]))
        = Except.ok (PyVal.dict es)
      ∧ assocGet (run true (PyVal.dict [("ServerName", PyVal.str "A"),
          ("Port", PyVal.int 42), ("MaxClients", PyVal.int 16)]) []
          (some ⟨[], "cfg.json"⟩) [(⟨[], "cfg.json"⟩, "old")]).2
          ⟨[], "cfg.json"⟩ = some (jsonDump (PyVal.dict es)) :=
  c4_backup_amended
    (PyVal.dict [("ServerName", PyVal.str "A"), ("Port", PyVal.int 42),
      ("MaxClients", PyVal.int 16)])
    [] [(⟨[], "cfg.json"⟩, "old")] ⟨[], "cfg.json"⟩ "old" rfl rfl

/-- C9: an environment variable with the `VS_CFG_` prefix that is not
a key of the translation table makes the unguarded
`self.env_setting_map[env_key]` lookup raise `KeyError`, and `run`
returns exit code 1 rather than ignoring the variable. -/
theorem c9_unknown_env_var_exits_one :
    generate_serverconfig [("VS_CFG_UNKNOWN", "x")]
      (PyVal.dict [("ServerName", PyVal.str "A")])
      = Except.error "KeyError"
    ∧ (run true (PyVal.dict [("ServerName", PyVal.str "A")])
        [("VS_CFG_UNKNOWN", "x")] (some ⟨[], "cfg.json"⟩) []).1 = 1 :=
  ⟨rfl, rfl⟩

/-- C10: when the merged configuration lacks `ServerName`, `Port` or
`MaxClients`, the unguarded summary indexing makes `run` exit 1 even
though the new output file has already been written and the prior file
already renamed to its backup: a non-zero exit does not mean the
output path is untouched. -/
theorem c10_exit_one_after_write
    (defaults : PyVal) (env : List (String × String))
    (fs : List (FPath × String)) (p : FPath) (c : String)
    (es : List (String × PyVal))
    (hgen : generate_serverconfig env (load_config true defaults)
      = Except.ok (PyVal.dict es))
    (hmiss : assocGet es "ServerName" = Option.none
      ∨ assocGet es "Port" = Option.none
      ∨ assocGet es "MaxClients" = Option.none)
    (hprior : assocGet fs p = some c) :
    (run true defaults env (some p) fs).1 = 1
    ∧ assocGet (run true defaults env (some p) fs).2 p
        = some (jsonDump (PyVal.dict es))
    ∧ assocGet (run true defaults env (some p) fs).2 (backupPath p) = some c := by
  have hne : backupPath p ≠ p := backupPath_ne p
  obtain ⟨fs1, hbs, hbp, hother⟩ := backupStep_spec hprior hne
  have hrun : run true defaults env (some p) fs
      = (summaryCode es, assocSet fs1 p (jsonDump (PyVal.dict es))) := by
    simp [run, hbs, hgen]
  rw [hrun]
  refine ⟨?_, assocGet_set_same .., ?_⟩
  · rcases hmiss with h | h | h <;> simp [summaryCode, h]
  · rw [assocGet_set_other _ _ _ _ hne]
    exact hbp

theorem c10_exit_one_after_write_witness :
    (run true (PyVal.dict [("ServerName", PyVal.str "A")]) []
      (some ⟨[], "cfg.json"⟩) [(⟨[], "cfg.json"⟩, "old")]).1 = 1
    ∧ assocGet (run true (PyVal.dict [("ServerName", PyVal.str "A")]) []
        (some ⟨[], "cfg.json"⟩) [(⟨[], "cfg.json"⟩, "old")]).2 ⟨[], "cfg.json"⟩
        = some (jsonDump (PyVal.dict [("ServerName", PyVal.str "A")]))
    ∧ assocGet (run true (PyVal.dict [("ServerName", PyVal.str "A")]) []
        (some ⟨[], "cfg.json"⟩) [(⟨[], "cfg.json"⟩, "old")]).2
        (backupPath ⟨[], "cfg.json"⟩) = some "old" :=
  c10_exit_one_after_write (PyVal.dict [("ServerName", PyVal.str "A")]) []
    [(⟨[], "cfg.json"⟩, "old")] ⟨[], "cfg.json"⟩ "old"
    [("ServerName", PyVal.str "A")] rfl (Or.inr (Or.inl rfl)) rfl

theorem keyLe_refl : ∀ as, keyLe as as = true
  | [] => rfl
  | a :: as1 => by
    simp [keyLe, keyLe_refl as1]

theorem keyLe_total : ∀ as bs, keyLe as bs = true ∨ keyLe bs as = true
  | [], _ => Or.inl rfl
  | _ :: _, [] => Or.inr rfl
  | a :: as1, b :: bs1 => by
    rcases Nat.lt_trichotomy a b with h | h | h
    · left
      simp only [keyLe]
      rw [if_pos h]
    · subst h
      rcases keyLe_total as1 bs1 with hr | hr
      · left
        simp [keyLe, hr]
      · right
        simp [keyLe, hr]
    · right
      simp only [keyLe]
      rw [if_pos h]

theorem keyLe_trans : ∀ as bs cs, keyLe as bs = true → keyLe bs cs = true →
    keyLe as cs = true
  | [], _, _, _, _ => rfl
  | _ :: _, [], _, h1, _ => by simp [keyLe] at h1
  | _ :: _, _ :: _, [], _, h2 => by simp [keyLe] at h2
  | a :: as1, b :: bs1, c :: cs1, h1, h2 => by
    simp only [keyLe] at h1 h2 ⊢
    by_cases hab : a < b
    · by_cases hbc : b < c
      · rw [if_pos (Nat.lt_trans hab hbc)]
      · rw [if_neg hbc] at h2
        by_cases hbc2 : b = c
        · rw [if_pos (hbc2 ▸ hab)]
        · rw [if_neg hbc2] at h2
          exact Bool.noConfusion h2
    · rw [if_neg hab] at h1
      by_cases hab2 : a = b
      · rw [if_pos hab2] at h1
        subst hab2
        by_cases hbc : a < c
        · rw [if_pos hbc]
        · rw [if_neg hbc] at h2 ⊢
          by_cases hbc2 : a = c
          · rw [if_pos hbc2] at h2 ⊢
            exact keyLe_trans as1 bs1 cs1 h1 h2
          · rw [if_neg hbc2] at h2
            exact Bool.noConfusion h2
      · rw [if_neg hab2] at h1
        exact Bool.noConfusion h1

theorem tagLe_refl (a : String) : tagLe a a := keyLe_refl (verKey a)

instance : IsTotal String tagLe :=
  ⟨fun a b => keyLe_total (verKey a) (verKey b)⟩

instance : IsTrans String tagLe :=
  ⟨fun a b c => keyLe_trans (verKey a) (verKey b) (verKey c)⟩

theorem sorted_rel_getLast {α : Type} {r : α → α → Prop} (hrefl : ∀ a, r a a) :
    ∀ (l : List α) (hl : l ≠ []), l.Sorted r → ∀ x ∈ l, r x (l.getLast hl)
  | [], hl, _, _, hx => absurd rfl hl
  | [a], _, _, x, hx => by
    simp at hx
    subst hx
    exact hrefl x
  | a :: b :: t, _, hs, x, hx => by
    rw [List.sorted_cons] at hs
    rw [List.getLast_cons (List.cons_ne_nil b t)]
    rcases List.mem_cons.mp hx with he | he
    · subst he
      exact hs.1 _ (List.getLast_mem (List.cons_ne_nil b t))
    · exact sorted_rel_getLast hrefl (b :: t) (List.cons_ne_nil b t) hs.2 x he

theorem getLastD_eq_getLast {α : Type} :
    ∀ (l : List α) (hl : l ≠ []) (d : α), l.getLastD d = l.getLast hl
  | [], hl, _ => absurd rfl hl
  | [a], _, d => rfl
  | a :: b :: t, _, d => by
    rw [List.getLast_cons (List.cons_ne_nil b t)]
    exact getLastD_eq_getLast (b :: t) (List.cons_ne_nil b t) a

/-- C5: `get_last_version` returns `"0.0.0"` when the `git tag -l`
subprocess fails or no tag matches the strict pattern; otherwise it
returns one of the matching tags, numerically greatest by
`(major, minor, patch)` tuple, as the `1.10.0` example shows. -/
theorem c5_get_last_version :
    get_last_version Option.none = "0.0.0"
    ∧ get_last_version (some "1.2.0\n1.10.0\n1.2.3") = "1.10.0"
    ∧ (∀ out, versionTagsOf out = [] → get_last_version (some out) = "0.0.0")
    ∧ (∀ out, versionTagsOf out ≠ [] →
        get_last_version (some out) ∈ versionTagsOf out
        ∧ ∀ t ∈ versionTagsOf out, tagLe t (get_last_version (some out))) := by
  refine ⟨rfl, rfl, ?_, ?_⟩
  · intro out h
    simp [get_last_version, h]
  · intro out h
    have hne : List.insertionSort tagLe (versionTagsOf out) ≠ [] := by
      intro habs
      apply h
      have hp := List.perm_insertionSort tagLe (versionTagsOf out)
      rw [habs] at hp
      exact (hp.symm.eq_nil)
    have hval : get_last_version (some out)
        = (List.insertionSort tagLe (versionTagsOf out)).getLast hne := by
      simp only [get_last_version, if_neg h]
      exact getLastD_eq_getLast _ hne _
    constructor
    · rw [hval]
      exact (List.perm_insertionSort tagLe (versionTagsOf out)).subset
        (List.getLast_mem hne)
    · intro t ht
      rw [hval]
      exact sorted_rel_getLast tagLe_refl _ hne
        (List.sorted_insertionSort tagLe _) t
        ((List.perm_insertionSort tagLe _).symm.subset ht)

theorem c5_get_last_version_witness :
    get_last_version (some "1.2.0\n1.10.0\n1.2.3")
      ∈ versionTagsOf "1.2.0\n1.10.0\n1.2.3"
    ∧ tagLe "1.2.3" (get_last_version (some "1.2.0\n1.10.0\n1.2.3")) := by
  have h := c5_get_last_version.2.2.2 "1.2.0\n1.10.0\n1.2.3" (by decide)
  exact ⟨h.1, h.2 "1.2.3" (by decide)⟩

theorem determineBumpGo_eq (cs : List (String × String)) (hm : Bool) :
    determineBumpGo cs hm =
      if cs.any isBreakingCommit then "major"
      else if hm || cs.any isFeatCommit then "minor"
      else "patch" := by
  induction cs generalizing hm with
  | nil => cases hm <;> simp [determineBumpGo]
  | cons c rest ih =>
    obtain ⟨subject, body⟩ := c
    simp only [determineBumpGo, List.any_cons]
    by_cases h1 : (pyContains subject "BREAKING CHANGE:"
        || pyContains body "BREAKING CHANGE:") = true
    · rw [if_pos h1]
      have hb : isBreakingCommit (subject, body) = true := by
        simp only [isBreakingCommit]
        simp only [Bool.or_eq_true] at h1 ⊢
        tauto
      rw [hb, Bool.true_or, if_pos rfl]
    · rw [if_neg h1]
      by_cases h2 : (pyStartsWith subject "feat!:"
          || pyStartsWith subject "fix!:") = true
      · rw [if_pos h2]
        have hb : isBreakingCommit (subject, body) = true := by
          simp only [isBreakingCommit]
          simp only [Bool.or_eq_true] at h2 ⊢
          tauto
        rw [hb, Bool.true_or, if_pos rfl]
      · rw [if_neg h2]
        rw [ih]
        have hb : isBreakingCommit (subject, body) = false := by
          simp only [isBreakingCommit]
          simp only [Bool.or_eq_true, not_or] at h1 h2
          simp [h1.1, h1.2, h2.1, h2.2]
        have hf : isFeatCommit (subject, body) = pyStartsWith subject "feat:" := rfl
        rw [hb, Bool.false_or, ← hf, Bool.or_assoc]

theorem determine_bump_eq (cs : List (String × String)) :
    determine_bump cs =
      if cs.any isBreakingCommit then "major"
      else if cs.any isFeatCommit then "minor"
      else "patch" := by
  rw [show determine_bump cs = determineBumpGo cs false from rfl,
    determineBumpGo_eq, Bool.false_or]

/-- C6: `determine_bump` classifies `major` exactly when some commit
carries a breaking marker (the literal `BREAKING CHANGE:` token in
subject or body, or a `^(feat|fix)!:` subject — the scan
short-circuits on the first such commit), else `minor` exactly when
some subject matches `^feat:`, else `patch`; the three spec examples
evaluate as stated. -/
theorem c6_determine_bump :
    (∀ cs, determine_bump cs = "major" ↔ ∃ c ∈ cs, isBreakingCommit c = true)
    ∧ (∀ cs, determine_bump cs = "minor" ↔
        (∀ c ∈ cs, isBreakingCommit c = false) ∧ ∃ c ∈ cs, isFeatCommit c = true)
    ∧ (∀ cs, determine_bump cs = "patch" ↔
        (∀ c ∈ cs, isBreakingCommit c = false) ∧ ∀ c ∈ cs, isFeatCommit c = false)
    ∧ determine_bump [("feat: add X", ""), ("fix: patch Y", "")] = "minor"
    ∧ determine_bump [("fix!: change API", "")] = "major"
    ∧ determine_bump [("chore: cleanup", "")] = "patch" := by
  have hnomem : ∀ (cs : List (String × String)) (p : (String × String) → Bool),
      ¬cs.any p = true → ∀ c ∈ cs, p c = false := by
    intro cs p hp c hc
    cases hcb : p c
    · rfl
    · exact absurd (List.any_eq_true.mpr ⟨c, hc, hcb⟩) hp
  refine ⟨?_, ?_, ?_, rfl, rfl, rfl⟩
  · intro cs
    rw [determine_bump_eq]
    by_cases hbr : cs.any isBreakingCommit = true
    · rw [if_pos hbr]
      simp only [List.any_eq_true] at hbr
      exact iff_of_true rfl hbr
    · rw [if_neg hbr]
      simp only [List.any_eq_true] at hbr
      refine iff_of_false ?_ hbr
      by_cases hf : cs.any isFeatCommit = true
      · rw [if_pos hf]
        decide
      · rw [if_neg hf]
        decide
  · intro cs
    rw [determine_bump_eq]
    by_cases hbr : cs.any isBreakingCommit = true
    · rw [if_pos hbr]
      refine iff_of_false (by decide) ?_
      rintro ⟨hall, _⟩
      simp only [List.any_eq_true] at hbr
      obtain ⟨c, hc1, hc2⟩ := hbr
      rw [hall c hc1] at hc2
      exact Bool.noConfusion hc2
    · rw [if_neg hbr]
      by_cases hf : cs.any isFeatCommit = true
      · rw [if_pos hf]
        simp only [List.any_eq_true] at hf
        exact iff_of_true rfl ⟨hnomem cs _ hbr, hf⟩
      · rw [if_neg hf]
        refine iff_of_false (by decide) ?_
        rintro ⟨_, c, hc1, hc2⟩
        exact hf (List.any_eq_true.mpr ⟨c, hc1, hc2⟩)
  · intro cs
    rw [determine_bump_eq]
    by_cases hbr : cs.any isBreakingCommit = true
    · rw [if_pos hbr]
      refine iff_of_false (by decide) ?_
      rintro ⟨hall, _⟩
      simp only [List.any_eq_true] at hbr
      obtain ⟨c, hc1, hc2⟩ := hbr
      rw [hall c hc1] at hc2
      exact Bool.noConfusion hc2
    · rw [if_neg hbr]
      by_cases hf : cs.any isFeatCommit = true
      · rw [if_pos hf]
        refine iff_of_false (by decide) ?_
        rintro ⟨_, hall⟩
        simp only [List.any_eq_true] at hf
        obtain ⟨c, hc1, hc2⟩ := hf
        rw [hall c hc1] at hc2
        exact Bool.noConfusion hc2
      · rw [if_neg hf]
        exact iff_of_true rfl ⟨hnomem cs _ hbr, hnomem cs _ hf⟩

theorem c6_determine_bump_witness :
    determine_bump [("feat: add X", ""), ("fix: patch Y", "")] = "minor"
    ∧ ∃ c ∈ [("feat: add X", ""), ("fix: patch Y", "")], isFeatCommit c = true := by
  refine ⟨c6_determine_bump.2.2.2.1, ?_⟩
  exact ((c6_determine_bump.2.1 [("feat: add X", ""), ("fix: patch Y", "")]).mp
    c6_determine_bump.2.2.2.1).2

/-- C7: `determine_new_version` returns Python `None` on an empty
commit list; returns the literal `"0.0.1"` whenever the current
version is `"0.0.0"` and commits exist, regardless of their content
and bypassing bump classification; and otherwise increments the
current version per the classified bump — major zeroing minor and
patch, minor zeroing patch, patch incrementing only patch — as the
`1.4.9` examples show. -/
theorem c7_determine_new_version :
    (∀ v, determine_new_version v [] = some Option.none)
    ∧ (∀ cs, cs ≠ [] → determine_new_version "0.0.0" cs = some (some "0.0.1"))
    ∧ (∀ v cs a b c, cs ≠ [] → v ≠ "0.0.0" →
        (pySplit v '.').mapM pyIntDigits = some [a, b, c] →
        determine_new_version v cs = some (some (
          if determine_bump cs = "major" then verStr (a + 1) 0 0
          else if determine_bump cs = "minor" then verStr a (b + 1) 0
          else verStr a b (c + 1))))
    ∧ increment_version "1.4.9" "major" = some "2.0.0"
    ∧ increment_version "1.4.9" "minor" = some "1.5.0"
    ∧ increment_version "1.4.9" "patch" = some "1.4.10" := by
  refine ⟨fun _ => rfl, ?_, ?_, rfl, rfl, rfl⟩
  · intro cs hcs
    cases cs with
    | nil => exact absurd rfl hcs
    | cons c0 rest => simp [determine_new_version]
  · intro v cs a b c hcs hv hparse
    cases cs with
    | nil => exact absurd rfl hcs
    | cons c0 rest =>
      simp only [determine_new_version, if_neg hv]
      have hinc : increment_version v (determine_bump (c0 :: rest))
          = some (if determine_bump (c0 :: rest) = "major" then verStr (a + 1) 0 0
              else if determine_bump (c0 :: rest) = "minor" then verStr a (b + 1) 0
              else verStr a b (c + 1)) := by
        simp only [increment_version, hparse]
        by_cases h1 : determine_bump (c0 :: rest) = "major"
        · rw [if_pos h1, if_pos h1]
        · rw [if_neg h1, if_neg h1]
          by_cases h2 : determine_bump (c0 :: rest) = "minor"
          · rw [if_pos h2, if_pos h2]
          · rw [if_neg h2, if_neg h2]
      rw [hinc]

theorem c7_determine_new_version_witness :
    determine_new_version "1.4.9" [("chore: x", "")]
      = some (some (
        if determine_bump [("chore: x", "")] = "major" then verStr (1 + 1) 0 0
        else if determine_bump [("chore: x", "")] = "minor" then verStr 1 (4 + 1) 0
        else verStr 1 4 (9 + 1))) :=
  c7_determine_new_version.2.2.1 "1.4.9" [("chore: x", "")] 1 4 9
    (by decide) (by decide) rfl

theorem create_zip_entries_sound (r v : String) :
    ∀ (pref : List String) (ts : List FTree),
      (∀ d ∈ pref, d ≠ ".git" ∧ d ≠ ".github") →
      ∀ e ∈ create_zip_entries r v pref ts,
        (∀ d ∈ e.1.dropLast, d ≠ ".git" ∧ d ≠ ".github") ∧ e.2 = arcName r v e.1
  | pref, [], _ => by
    intro e he
    simp [create_zip_entries] at he
  | pref, FTree.file name :: rest, h => by
    intro e he
    simp only [create_zip_entries] at he
    rcases List.mem_cons.mp he with he1 | he1
    · subst he1
      refine ⟨?_, rfl⟩
      rw [List.dropLast_concat]
      exact h
    · exact create_zip_entries_sound r v pref rest h e he1
  | pref, FTree.dir name ch :: rest, h => by
    intro e he
    simp only [create_zip_entries] at he
    by_cases hex : name = ".git" ∨ name = ".github"
    · rw [if_pos hex] at he
      exact create_zip_entries_sound r v pref rest h e he
    · rw [if_neg hex] at he
      push_neg at hex
      rcases List.mem_append.mp he with he1 | he1
      · refine create_zip_entries_sound r v (pref ++ [name]) ch ?_ e he1
        intro d hd
        rcases List.mem_append.mp hd with hd1 | hd1
        · exact h d hd1
        · simp only [List.mem_singleton] at hd1
          subst hd1
          exact hex
      · exact create_zip_entries_sound r v pref rest h e he1

theorem allFiles_prefix :
    ∀ (pref : List String) (ts : List FTree),
      ∀ p ∈ allFiles pref ts, ∃ q, q ≠ [] ∧ p = pref ++ q
  | pref, [] => by
    intro p hp
    simp [allFiles] at hp
  | pref, FTree.file name :: rest => by
    intro p hp
    simp only [allFiles] at hp
    rcases List.mem_cons.mp hp with h1 | h1
    · exact ⟨[name], List.cons_ne_nil name [], h1⟩
    · exact allFiles_prefix pref rest p h1
  | pref, FTree.dir name ch :: rest => by
    intro p hp
    simp only [allFiles] at hp
    rcases List.mem_append.mp hp with h1 | h1
    · obtain ⟨q, hq1, hq2⟩ := allFiles_prefix (pref ++ [name]) ch p h1
      refine ⟨name :: q, List.cons_ne_nil name q, ?_⟩
      rw [hq2, List.append_assoc]
      rfl
    · exact allFiles_prefix pref rest p h1

theorem create_zip_entries_complete (r v : String) :
    ∀ (pref : List String) (ts : List FTree) (p : List String),
      p ∈ allFiles pref ts →
      (∀ d ∈ p.dropLast, d ≠ ".git" ∧ d ≠ ".github") →
      (p, arcName r v p) ∈ create_zip_entries r v pref ts
  | pref, [], p, hp, _ => by
    simp [allFiles] at hp
  | pref, FTree.file name :: rest, p, hp, hcl => by
    simp only [allFiles] at hp
    simp only [create_zip_entries]
    rcases List.mem_cons.mp hp with h1 | h1
    · subst h1
      exact List.mem_cons_self _ _
    · exact List.mem_cons_of_mem _
        (create_zip_entries_complete r v pref rest p h1 hcl)
  | pref, FTree.dir name ch :: rest, p, hp, hcl => by
    simp only [allFiles] at hp
    simp only [create_zip_entries]
    rcases List.mem_append.mp hp with h1 | h1
    · obtain ⟨q, hq1, hq2⟩ := allFiles_prefix (pref ++ [name]) ch p h1
      have hname : name ∈ p.dropLast := by
        rw [hq2, List.dropLast_append_of_ne_nil _ hq1]
        exact List.mem_append_left _ (List.mem_append_right _ (List.mem_singleton.mpr rfl))
      have hex : ¬(name = ".git" ∨ name = ".github") := by
        have hcl2 := hcl name hname
        tauto
      rw [if_neg hex]
      exact List.mem_append_left _
        (create_zip_entries_complete r v (pref ++ [name]) ch p h1 hcl)
    · by_cases hex : name = ".git" ∨ name = ".github"
      · rw [if_pos hex]
        exact create_zip_entries_complete r v pref rest p h1 hcl
      · rw [if_neg hex]
        exact List.mem_append_right _
          (create_zip_entries_complete r v pref rest p h1 hcl)

/-- C8 counterexample: `dirs[:]` only prunes directories, so a regular
FILE named `.git` at the working-tree root (as in git submodules or
worktrees, where `.git` is a file) is written into the archive — its
source path has the component `.git`, which the claim forbids for
every entry. -/
theorem c8_zip_counterexample :
    create_zip_entries "repo" "1.0" [] [FTree.file ".git"]
      = [([".git"], "repo-1.0/.git")]
    ∧ ".git" ∈ ([".git"] : List String) := by
  have hev : create_zip_entries "repo" "1.0" [] [FTree.file ".git"]
      = [([".git"], "repo-1.0/.git")] := by
    simp [create_zip_entries, arcName]
    rfl
  exact ⟨hev, List.mem_singleton.mpr rfl⟩

/-- C8 (amended): every zip entry's source path has no DIRECTORY
component (no component before the file name) named `.git` or
`.github`, and its archive path is the source path rewritten under the
`{repoName}-{version}/` root; conversely every file of the working
tree none of whose ancestor directories is named `.git` or `.github`
is written, with exactly that archive path.  Files themselves named
`.git`/`.github` are not excluded. -/
theorem c8_create_zip (r v : String) (tree : List FTree) :
    (∀ e ∈ create_zip_entries r v [] tree,
      (∀ d ∈ e.1.dropLast, d ≠ ".git" ∧ d ≠ ".github")
      ∧ e.2 = arcName r v e.1)
    ∧ (∀ p ∈ allFiles [] tree,
        (∀ d ∈ p.dropLast, d ≠ ".git" ∧ d ≠ ".github") →
        (p, arcName r v p) ∈ create_zip_entries r v [] tree) :=
  ⟨fun e he => create_zip_entries_sound r v [] tree (by simp) e he,
   fun p hp hcl => create_zip_entries_complete r v [] tree p hp hcl⟩

theorem c8_create_zip_witness :
    ((∀ d ∈ (["README.md"] : List String).dropLast,
        d ≠ ".git" ∧ d ≠ ".github")
      ∧ ("repo-1.0/README.md" : String) = arcName "repo" "1.0" ["README.md"])
    ∧ (["src", "a.py"], arcName "repo" "1.0" ["src", "a.py"])
        ∈ create_zip_entries "repo" "1.0" []
          [FTree.file "README.md", FTree.dir ".git" [FTree.file "HEAD"],
           FTree.dir "src" [FTree.file "a.py"]] := by
  have hev : create_zip_entries "repo" "1.0" []
      [FTree.file "README.md", FTree.dir ".git" [FTree.file "HEAD"],
       FTree.dir "src" [FTree.file "a.py"]]
      = [(["README.md"], "repo-1.0/README.md"),
         (["src", "a.py"], "repo-1.0/src/a.py")] := by
    simp [create_zip_entries, arcName]
    constructor <;> rfl
  constructor
  · exact (c8_create_zip "repo" "1.0"
      [FTree.file "README.md", FTree.dir ".git" [FTree.file "HEAD"],
       FTree.dir "src" [FTree.file "a.py"]]).1
      (["README.md"], "repo-1.0/README.md")
      (by rw [hev]; exact List.mem_cons_self _ _)
  · refine (c8_create_zip "repo" "1.0"
      [FTree.file "README.md", FTree.dir ".git" [FTree.file "HEAD"],
       FTree.dir "src" [FTree.file "a.py"]]).2 ["src", "a.py"] ?_ ?_
    · have hev2 : allFiles []
          [FTree.file "README.md", FTree.dir ".git" [FTree.file "HEAD"],
           FTree.dir "src" [FTree.file "a.py"]]
          = [["README.md"], [".git", "HEAD"], ["src", "a.py"]] := by
        simp [allFiles]
      rw [hev2]
      decide
    · decide

end VintageStory
